import Mathlib

/-!
Shallow embedding of the Brain-Stroke-Prediction pipeline
(`src/strokeprediction.py`) and proofs about its claims.

The script is a linear pipeline: load/deduplicate → scale → resample/re-encode
labels → select features → split → tune → evaluate ten models → report the
best model.  Machine floats are modelled as rationals (ℚ); tabular data as
lists of rows/columns; the external library calls (pandas, scikit-learn) are
embedded from their documented contracts where their code is not part of the
repository.
-/

namespace StrokePred

/-! ## Loader: `df = df.drop_duplicates()` (line 32)

pandas `drop_duplicates` removes rows equal across all columns, keeping the
first occurrence of each duplicate group, in original row order. -/

/-- Full-row deduplication keeping first occurrences, as pandas
`DataFrame.drop_duplicates` does on line 32 of the script. -/
def dropDuplicates {α : Type} [DecidableEq α] : List α → List α
  | [] => []
  | x :: xs => x :: dropDuplicates (xs.filter (fun a => decide (a ≠ x)))
termination_by l => l.length
decreasing_by
simp only [List.length_cons]
exact Nat.lt_succ_of_le (List.length_filter_le _ _)

/-! ## Scaler: `StandardScaler().fit_transform(features)` (lines 33-36)

The table after deduplication is split into the feature columns and the
`Class` column; the features are standardized column-wise and the `Class`
column is reattached positionally (`df['Class'].values`). -/

/-- A table as the script sees it after loading: feature columns
(column-major, each a list of the column's values, one per row) plus the
categorical `Class` column. -/
structure DataFrame where
  features : List (List ℚ)
  cls : List ℚ
deriving DecidableEq, Repr

/-- Mean of a column, as `StandardScaler` computes per feature column. -/
def colMean (c : List ℚ) : ℚ := c.sum / (c.length : ℚ)

/-- Population variance of a column (square of the standard deviation
`StandardScaler` divides by). -/
def colVar (c : List ℚ) : ℚ :=
  ((c.map (fun x => (x - colMean c) ^ 2)).sum) / (c.length : ℚ)

/-- Modelled from the spec: `sklearn.preprocessing.StandardScaler`
`fit_transform` is an external library call not present in `src/`.  Per the
spec (§4.2) it standardizes every feature column to zero mean and unit
variance and "must fail with `ValueError` if a column's standard deviation is
zero".  A zero standard deviation is exactly a zero variance, which is
decidable over ℚ; the (irrational) square root used by the division is passed
in as the library's numeric square-root routine `sqrtQ`. -/
def standardScalerFitTransform (sqrtQ : ℚ → ℚ) (cols : List (List ℚ)) :
    Except String (List (List ℚ)) :=
  if cols.any (fun c => decide (colVar c = 0)) then
    Except.error "ValueError: column with zero standard deviation"
  else
    Except.ok (cols.map (fun c => c.map (fun x => (x - colMean c) / sqrtQ (colVar c))))

/-- Lines 33-36 of the script: drop the `Class` column, scale the features,
rebuild a table from the scaled features, and reattach `Class` positionally
via `df['Class'].values`. -/
def scaleStep (sqrtQ : ℚ → ℚ) (df : DataFrame) : Except String DataFrame :=
  match standardScalerFitTransform sqrtQ df.features with
  | Except.error e => Except.error e
  | Except.ok scaled => Except.ok { features := scaled, cls := df.cls }

/-! ## Label encoding (lines 41-42, 49)

`LabelEncoder().fit_transform(y)` maps each label to its index in the sorted
list of distinct labels, producing values `0..k-1`.  Line 49 re-applies a
fresh encoder to the resampled labels. -/

/-- Sorted distinct values of a list, as `numpy.unique` returns them and as
`LabelEncoder.fit` stores them in `classes_`. -/
def uniqueSorted (l : List ℕ) : List ℕ :=
  l.dedup.insertionSort (fun a b => a ≤ b)

/-- `LabelEncoder().fit_transform(l)`: each label becomes the index of its
value in the sorted distinct values (line 49: `y_resampled =
LabelEncoder().fit_transform(y_resampled)`). -/
def labelEncode (l : List ℕ) : List ℕ :=
  l.map (fun y => (uniqueSorted l).indexOf y)

/-! ## Feature selection (lines 54-62)

`importances.sort_values(ascending=False).index[:60]` keeps the 60 features
with the highest XGBoost importances (the pandas slice clamps when fewer
exist), then `SelectKBest(score_func=f_classif, k=40)` keeps the 40 of those
with the highest ANOVA F-scores. -/

/-- Modelled from the spec: `sklearn.feature_selection.SelectKBest` is an
external library call not present in `src/`.  Per the spec (§4.4) it scores
each feature column against the label with the given score function and keeps
the `k` highest-scoring columns in their original order, and "fails with
`ValueError` if [the requested count] exceeds available feature count". -/
def selectKBest (scoreF : List ℚ → List ℕ → ℚ) (k : ℕ)
    (cols : List (String × List ℚ)) (y : List ℕ) :
    Except String (List (String × List ℚ)) :=
  if cols.length < k then
    Except.error "ValueError: k exceeds number of available features"
  else
    Except.ok
      (let keep :=
        (((List.range cols.length).insertionSort
            (fun i j => scoreF ((cols.getD j ("", [])).2) y
                          ≤ scoreF ((cols.getD i ("", [])).2) y)).take k)
       (cols.enum.filter (fun p => decide (p.1 ∈ keep))).map Prod.snd)

/-- Lines 54-62: rank the features by XGBoost importance (descending), slice
off the top 60 (`importances.index[:60]` clamps when fewer exist), then run
`SelectKBest(k=40)` on those columns and return the selected feature names.
Each input feature carries its name, its fitted importance and its column. -/
def featureSelection (scoreF : List ℚ → List ℕ → ℚ)
    (feats : List (String × ℚ × List ℚ)) (y : List ℕ) :
    Except String (List String) :=
  (selectKBest scoreF 40
      (((feats.insertionSort (fun a b => b.2.1 ≤ a.2.1)).take 60).map
        (fun f => (f.1, f.2.2))) y).map
    (fun sel => sel.map Prod.fst)

/-! ## Train/test split (lines 68-70) -/

/-- Modelled from the spec: `sklearn.model_selection.train_test_split` is an
external library call not present in `src/`.  It shuffles the row indices
into a seed-determined permutation `perm` of `0..n-1` (stratified by label),
takes the first `nTest` shuffled rows (`test_size=0.2` makes `nTest` 20% of
`n`) as the test subset and the remaining rows as the train subset. -/
def train_test_split {α : Type} (X : List α) (perm : List ℕ) (nTest : ℕ) :
    List α × List α :=
  ((perm.drop nTest).filterMap (fun i => X.get? i),
   (perm.take nTest).filterMap (fun i => X.get? i))

/-! ## Metrics (lines 113-118), exactly as `evaluate_model` computes them -/

/-- `accuracy_score(y_test, y_pred)` (line 113): fraction of positions where
the prediction equals the true label. -/
def accuracy_score (yt yp : List ℕ) : ℚ :=
  ((((yt.zip yp).filter (fun p => decide (p.1 = p.2))).length : ℚ))
    / (yt.length : ℚ)

/-- Number of test samples whose true label is `c` (scikit-learn's per-class
`support`). -/
def support (yt : List ℕ) (c : ℕ) : ℕ :=
  (yt.filter (fun a => decide (a = c))).length

/-- One confusion-matrix cell: number of samples with true label `c`
predicted as `c2`. -/
def cmEntry (yt yp : List ℕ) (c c2 : ℕ) : ℕ :=
  ((yt.zip yp).filter (fun p => decide (p.1 = c) && decide (p.2 = c2))).length

/-- The sorted distinct labels occurring in the truth or the prediction: the
label set scikit-learn uses for the confusion matrix and averaged metrics. -/
def classesList (yt yp : List ℕ) : List ℕ := uniqueSorted (yt ++ yp)

/-- `confusion_matrix(y_test, y_pred)` (line 114): rows are true classes and
columns predicted classes, both in sorted label order. -/
def confusion_matrix (yt yp : List ℕ) : List (List ℕ) :=
  (classesList yt yp).map
    (fun c => (classesList yt yp).map (fun c2 => cmEntry yt yp c c2))

/-- Per-class precision with `zero_division=0` (line 116). -/
def precClass (yt yp : List ℕ) (c : ℕ) : ℚ :=
  if ((yt.zip yp).filter (fun p => decide (p.2 = c))).length = 0 then 0
  else (cmEntry yt yp c c : ℚ)
    / (((yt.zip yp).filter (fun p => decide (p.2 = c))).length : ℚ)

/-- Per-class recall with `zero_division=0` (line 117). -/
def recClass (yt yp : List ℕ) (c : ℕ) : ℚ :=
  if support yt c = 0 then 0
  else (cmEntry yt yp c c : ℚ) / (support yt c : ℚ)

/-- Per-class F1 with `zero_division=0` (line 118). -/
def f1Class (yt yp : List ℕ) (c : ℕ) : ℚ :=
  if precClass yt yp c + recClass yt yp c = 0 then 0
  else 2 * precClass yt yp c * recClass yt yp c
    / (precClass yt yp c + recClass yt yp c)

/-- Support-weighted average of a per-class metric over the occurring
classes, as `average='weighted'` computes it (0 when the total weight is 0,
matching `zero_division=0`). -/
def weightedAvg (yt yp : List ℕ) (metric : ℕ → ℚ) : ℚ :=
  if ((classesList yt yp).map (fun c => (support yt c : ℚ))).sum = 0 then 0
  else ((classesList yt yp).map (fun c => (support yt c : ℚ) * metric c)).sum
    / ((classesList yt yp).map (fun c => (support yt c : ℚ))).sum

/-- `precision_score(..., average='weighted', zero_division=0)` (line 116). -/
def precision_score (yt yp : List ℕ) : ℚ := weightedAvg yt yp (precClass yt yp)

/-- `recall_score(..., average='weighted', zero_division=0)` (line 117). -/
def recall_score (yt yp : List ℕ) : ℚ := weightedAvg yt yp (recClass yt yp)

/-- `f1_score(..., average='weighted', zero_division=0)` (line 118). -/
def f1_score (yt yp : List ℕ) : ℚ := weightedAvg yt yp (f1Class yt yp)

/-! ## Binarization and the two evaluators (lines 104-154, 196-212) -/

/-- `label_binarize(y_test, classes=np.unique(y_test))` (line 108), returned
column-major: one indicator column per class in sorted class order — except
that scikit-learn collapses a binary problem to a single column indicating
the second (larger) class. -/
def label_binarize (yte : List ℕ) : List (List ℕ) :=
  if (uniqueSorted yte).length = 2 then
    [yte.map (fun y => if y = (uniqueSorted yte).getD 1 0 then 1 else 0)]
  else
    (uniqueSorted yte).map
      (fun c => yte.map (fun y => if y = c then 1 else 0))

/-- A registered model: fitting on the train split and predicting the test
split is deterministic, so it is folded into one function (the script fits
each model exactly once, immediately before predicting).  `hasProba` is
`hasattr(model, "predict_proba")`; `predict_proba` returns its probability
matrix column-major (`y_score[:, i]` is column `i`). -/
structure Classifier where
  predict : List (List ℚ) → List ℕ → List (List ℚ) → List ℕ
  hasProba : Bool
  predict_proba : List (List ℚ) → List ℕ → List (List ℚ) → List (List ℚ)

/-- The `average_metrics` sub-record of the full evaluator (lines 132-137). -/
structure AverageMetrics where
  accuracy : ℚ
  precision : ℚ
  recallW : ℚ
  f1_score : ℚ
deriving DecidableEq, Repr

/-- The per-model record the full evaluator stores (lines 129-139). -/
structure FullMetrics where
  accuracy : ℚ
  confusion_matrices : List (List (List ℕ))
  average_metrics : AverageMetrics
  roc_curves : List (List ℚ × List ℚ)

/-- The body of the first `evaluate_model` (lines 110-139) for one model:
fit, predict, compute the metrics, and — only when the model exposes
`predict_proba` — one ROC curve per column of the binarized test labels.
`rocCurveFn` is scikit-learn's `roc_curve`, consumed as an opaque external
routine mapping a binary column and a score column to an (fpr, tpr) pair. -/
def evalOne (rocCurveFn : List ℕ → List ℚ → List ℚ × List ℚ)
    (cl : Classifier) (Xtr : List (List ℚ)) (ytr : List ℕ)
    (Xte : List (List ℚ)) (yte : List ℕ) : FullMetrics :=
  let yp := cl.predict Xtr ytr Xte
  { accuracy := accuracy_score yte yp
    confusion_matrices := [confusion_matrix yte yp]
    average_metrics :=
      { accuracy := accuracy_score yte yp
        precision := precision_score yte yp
        recallW := recall_score yte yp
        f1_score := f1_score yte yp }
    roc_curves :=
      if cl.hasProba then
        (List.range (label_binarize yte).length).map
          (fun i => rocCurveFn ((label_binarize yte).getD i [])
            ((cl.predict_proba Xtr ytr Xte).getD i []))
      else [] }

/-- The first `evaluate_model` (lines 104-154): evaluates every registered
model independently, producing the insertion-ordered metrics record. -/
def evaluate_model (rocCurveFn : List ℕ → List ℚ → List ℚ × List ℚ)
    (models : List (String × Classifier)) (Xtr : List (List ℚ))
    (Xte : List (List ℚ)) (ytr : List ℕ) (yte : List ℕ) :
    List (String × FullMetrics) :=
  models.map (fun p => (p.1, evalOne rocCurveFn p.2 Xtr ytr Xte yte))

/-- The per-model record of the second, simplified `evaluate_model`
(lines 206-211). -/
structure SimpleMetrics where
  accuracy : ℚ
  precision : ℚ
  recallW : ℚ
  f1_score : ℚ
deriving DecidableEq, Repr

/-- The second `evaluate_model` definition (lines 196-212): same fit/predict
and the same four weighted metrics, without confusion matrices, reports or
ROC curves. -/
def evaluate_model_simple (models : List (String × Classifier))
    (Xtr : List (List ℚ)) (Xte : List (List ℚ)) (ytr : List ℕ)
    (yte : List ℕ) : List (String × SimpleMetrics) :=
  models.map (fun p =>
    (p.1,
      ({ accuracy := accuracy_score yte (p.2.predict Xtr ytr Xte)
         precision := precision_score yte (p.2.predict Xtr ytr Xte)
         recallW := recall_score yte (p.2.predict Xtr ytr Xte)
         f1_score := f1_score yte (p.2.predict Xtr ytr Xte) } : SimpleMetrics)))

/-! ## Best-model selection (line 188) -/

/-- Python's `max(iterable, key=...)`: scan left to right keeping the current
best and replacing it only when a strictly greater key appears, so the first
element attaining the maximum wins. -/
def pyMaxBy {β : Type} (key : β → ℚ) (x : β) (xs : List β) : β :=
  xs.foldl (fun b a => if key b < key a then a else b) x

/-- Line 188: `best_model = max(metrics, key=lambda m: metrics[m]["accuracy"])`
over the insertion-ordered metrics record (`none` only for an empty record,
which the script never produces). -/
def best_model (metrics : List (String × FullMetrics)) : Option String :=
  match metrics with
  | [] => none
  | x :: xs => some (pyMaxBy (fun p => p.2.accuracy) x xs).1

/-! ## Concrete instances used to evaluate the definitions on small inputs -/

/-- Trivial ANOVA score stand-in for exercising the feature selector. -/
def scoreZero : List ℚ → List ℕ → ℚ := fun _ _ => 0

/-- Ten named feature columns: the spec's 10-feature scenario. -/
def feats10 : List (String × ℚ × List ℚ) :=
  [("f1", 0, []), ("f2", 0, []), ("f3", 0, []), ("f4", 0, []), ("f5", 0, []),
   ("f6", 0, []), ("f7", 0, []), ("f8", 0, []), ("f9", 0, []), ("f10", 0, [])]

/-- Constant stand-in for the external `roc_curve` routine. -/
def rocConst : List ℕ → List ℚ → List ℚ × List ℚ := fun _ _ => ([], [])

/-- A classifier exposing `predict_proba` (like SVC with `probability=True`). -/
def clfProba : Classifier :=
  { predict := fun _ _ _ => []
    hasProba := true
    predict_proba := fun _ _ _ => [] }

/-- A classifier without `predict_proba` (like `PassiveAggressiveClassifier`). -/
def clfNoProba : Classifier :=
  { predict := fun _ _ _ => []
    hasProba := false
    predict_proba := fun _ _ _ => [] }

/-- A metrics record with a given accuracy, for exercising `best_model`. -/
def mkFM (a : ℚ) : FullMetrics :=
  { accuracy := a
    confusion_matrices := []
    average_metrics := { accuracy := a, precision := 0, recallW := 0, f1_score := 0 }
    roc_curves := [] }

/-! ## Helper lemmas for the definitions above -/

theorem dropDuplicates_nil {α : Type} [DecidableEq α] :
    dropDuplicates ([] : List α) = [] := by
  rw [dropDuplicates]

theorem dropDuplicates_cons {α : Type} [DecidableEq α] (x : α) (xs : List α) :
    dropDuplicates (x :: xs)
      = x :: dropDuplicates (xs.filter (fun a => decide (a ≠ x))) := by
  rw [dropDuplicates]

theorem mem_dropDuplicates {α : Type} [DecidableEq α] (l : List α) (a : α) :
    a ∈ dropDuplicates l ↔ a ∈ l := by
  induction l using dropDuplicates.induct with
  | case1 => simp [dropDuplicates_nil]
  | case2 x xs ih =>
      rw [dropDuplicates_cons]
      simp only [List.mem_cons, ih, List.mem_filter, decide_eq_true_eq]
      constructor
      · rintro (rfl | ⟨hmem, _⟩)
        · exact Or.inl rfl
        · exact Or.inr hmem
      · rintro (rfl | hmem)
        · exact Or.inl rfl
        · by_cases hax : a = x
          · exact Or.inl hax
          · exact Or.inr ⟨hmem, hax⟩

theorem dropDuplicates_nodup {α : Type} [DecidableEq α] (l : List α) :
    (dropDuplicates l).Nodup := by
  induction l using dropDuplicates.induct with
  | case1 => simp [dropDuplicates_nil]
  | case2 x xs ih =>
      rw [dropDuplicates_cons]
      refine List.nodup_cons.2 ⟨?_, ih⟩
      intro hmem
      rw [mem_dropDuplicates] at hmem
      exact (by simpa using (List.mem_filter.1 hmem).2 : x ≠ x) rfl

theorem dropDuplicates_sublist {α : Type} [DecidableEq α] (l : List α) :
    (dropDuplicates l).Sublist l := by
  induction l using dropDuplicates.induct with
  | case1 => simp [dropDuplicates_nil]
  | case2 x xs ih =>
      rw [dropDuplicates_cons]
      exact (ih.trans (List.filter_sublist xs)).cons₂ x

theorem dropDuplicates_of_nodup {α : Type} [DecidableEq α] (l : List α)
    (h : l.Nodup) : dropDuplicates l = l := by
  induction l using dropDuplicates.induct with
  | case1 => exact dropDuplicates_nil
  | case2 x xs ih =>
      rw [dropDuplicates_cons]
      rcases List.nodup_cons.1 h with ⟨hx, hxs⟩
      have hfilter : xs.filter (fun a => decide (a ≠ x)) = xs := by
        apply List.filter_eq_self.2
        intro a ha
        simp only [decide_eq_true_eq]
        rintro rfl
        exact hx ha
      rw [hfilter] at ih ⊢
      rw [ih hxs]

theorem dropDuplicates_idem {α : Type} [DecidableEq α] (l : List α) :
    dropDuplicates (dropDuplicates l) = dropDuplicates l :=
  dropDuplicates_of_nodup _ (dropDuplicates_nodup l)

/-- Filtering a list preserves the relative order of first-occurrence indices
of the surviving elements. -/
theorem indexOf_filter_lt {α : Type} [DecidableEq α] (p : α → Bool) :
    ∀ (l : List α) (a b : α), a ∈ l.filter p → b ∈ l.filter p →
      (l.filter p).indexOf a < (l.filter p).indexOf b →
      l.indexOf a < l.indexOf b := by
  intro l
  induction l with
  | nil => intro a b ha; simp at ha
  | cons c t ih =>
      intro a b ha hb hlt
      by_cases hpc : p c
      · rw [List.filter_cons_of_pos hpc] at ha hb hlt
        by_cases hac : c = a
        · subst hac
          rw [List.indexOf_cons_self] at *
          have hbc : c ≠ b := by
            intro hcb
            subst hcb
            simp [List.indexOf_cons_self] at hlt
          rw [List.indexOf_cons_ne _ hbc]
          exact Nat.succ_pos _
        · rw [List.indexOf_cons_ne _ hac] at hlt
          have hbc : c ≠ b := by
            intro hcb
            subst hcb
            rw [List.indexOf_cons_self] at hlt
            exact Nat.not_succ_le_zero _ hlt
          rw [List.indexOf_cons_ne _ hbc] at hlt
          rw [List.indexOf_cons_ne _ hac, List.indexOf_cons_ne _ hbc]
          have ha' : a ∈ t.filter p := by
            rcases List.mem_cons.1 ha with h | h
            · exact absurd h.symm hac
            · exact h
          have hb' : b ∈ t.filter p := by
            rcases List.mem_cons.1 hb with h | h
            · exact absurd h.symm hbc
            · exact h
          exact Nat.succ_lt_succ (ih a b ha' hb' (Nat.lt_of_succ_lt_succ hlt))
      · rw [List.filter_cons_of_neg hpc] at ha hb hlt
        have hac : c ≠ a := by
          rintro rfl
          exact hpc (List.of_mem_filter ha)
        have hbc : c ≠ b := by
          rintro rfl
          exact hpc (List.of_mem_filter hb)
        rw [List.indexOf_cons_ne _ hac, List.indexOf_cons_ne _ hbc]
        exact Nat.succ_lt_succ (ih a b ha hb hlt)

/-- The deduplicated list is ordered by first occurrence in the original. -/
theorem dropDuplicates_pairwise_indexOf {α : Type} [DecidableEq α]
    (l : List α) :
    (dropDuplicates l).Pairwise (fun a b => l.indexOf a < l.indexOf b) := by
  induction l using dropDuplicates.induct with
  | case1 => simp [dropDuplicates_nil]
  | case2 x xs ih =>
      rw [dropDuplicates_cons]
      refine List.Pairwise.cons ?_ ?_
      · intro b hb
        have hb' : b ∈ xs.filter (fun a => decide (a ≠ x)) :=
          (mem_dropDuplicates _ b).1 hb
        have hbx : x ≠ b := by
          have := List.of_mem_filter hb'
          simp only [decide_eq_true_eq] at this
          exact fun hxb => this hxb.symm
        rw [List.indexOf_cons_self, List.indexOf_cons_ne _ hbx]
        exact Nat.succ_pos _
      · refine List.Pairwise.imp_of_mem ?_ ih
        intro a b ha hb hlt
        have ha' := (mem_dropDuplicates _ a).1 ha
        have hb' := (mem_dropDuplicates _ b).1 hb
        have hax : x ≠ a := by
          have := List.of_mem_filter ha'
          simp only [decide_eq_true_eq] at this
          exact fun h => this h.symm
        have hbx : x ≠ b := by
          have := List.of_mem_filter hb'
          simp only [decide_eq_true_eq] at this
          exact fun h => this h.symm
        rw [List.indexOf_cons_ne _ hax, List.indexOf_cons_ne _ hbx]
        exact Nat.succ_lt_succ
          (indexOf_filter_lt _ xs a b ha' hb'
            (hlt.trans_le (le_refl _)))

theorem uniqueSorted_nodup (l : List ℕ) : (uniqueSorted l).Nodup :=
  (List.perm_insertionSort _ l.dedup).nodup_iff.2 l.nodup_dedup

theorem mem_uniqueSorted (l : List ℕ) (a : ℕ) :
    a ∈ uniqueSorted l ↔ a ∈ l := by
  rw [uniqueSorted, (List.perm_insertionSort _ l.dedup).mem_iff, List.mem_dedup]

theorem uniqueSorted_length (l : List ℕ) :
    (uniqueSorted l).length = l.dedup.length :=
  List.length_insertionSort _ l.dedup

theorem colVar_of_const (c : List ℚ) (a : ℚ) (h : ∀ x ∈ c, x = a) :
    colVar c = 0 := by
  cases c with
  | nil => simp [colVar]
  | cons b t =>
      have hlen : (((b :: t).length : ℚ)) ≠ 0 := by
        simp [Nat.cast_add]
        positivity
      have hsum : (b :: t).sum = ((b :: t).length : ℚ) * a := by
        rw [List.sum_eq_card_nsmul (b :: t) a h, nsmul_eq_mul]
      have hmean : colMean (b :: t) = a := by
        rw [colMean, hsum]
        exact mul_div_cancel_left₀ a hlen
      have hzero : ((b :: t).map (fun x => (x - colMean (b :: t)) ^ 2)).sum = 0 := by
        apply List.sum_eq_zero
        intro y hy
        rcases List.mem_map.1 hy with ⟨x, hx, rfl⟩
        rw [hmean, h x hx]
        ring
      rw [colVar, hzero, zero_div]

theorem length_filterMap_get {α : Type} (X : List α) :
    ∀ (idx : List ℕ), (∀ i ∈ idx, i < X.length) →
      (idx.filterMap (fun i => X.get? i)).length = idx.length := by
  intro idx
  induction idx with
  | nil => intro _; rfl
  | cons j t ih =>
      intro h
      have hj : j < X.length := h j (List.mem_cons_self _ _)
      rw [List.filterMap_cons, List.get?_eq_get hj]
      simp only [List.length_cons]
      rw [ih (fun i hi => h i (List.mem_cons_of_mem _ hi))]

/-- C7: `LabelEncoder().fit_transform` (line 49) re-encodes the resampled
labels so that the values occurring in the output are exactly the contiguous
range `{0, ..., k-1}`, `k` being the number of distinct labels present. -/
theorem labelEncode_contiguous_range (l : List ℕ) :
    (∀ j, j ∈ labelEncode l ↔ j < (uniqueSorted l).length)
      ∧ (uniqueSorted l).length = l.dedup.length := by
  refine ⟨fun j => ⟨?_, ?_⟩, uniqueSorted_length l⟩
  · intro hj
    rcases List.mem_map.1 hj with ⟨y, hy, rfl⟩
    exact List.indexOf_lt_length.2 ((mem_uniqueSorted l y).2 hy)
  · intro hj
    have hy : (uniqueSorted l).get ⟨j, hj⟩ ∈ l :=
      (mem_uniqueSorted l _).1 (List.get_mem _ _ _)
    exact List.mem_map.2
      ⟨(uniqueSorted l).get ⟨j, hj⟩, hy,
        List.get_indexOf (uniqueSorted_nodup l) ⟨j, hj⟩⟩

/-- C8: if a feature column is constant, its standard deviation (hence its
variance) is zero, and the scaler's fit fails with a `ValueError` instead of
producing scaled output. -/
theorem standardScaler_const_column_fails (sqrtQ : ℚ → ℚ)
    (cols : List (List ℚ)) (c : List ℚ) (a : ℚ)
    (hc : c ∈ cols) (ha : ∀ x ∈ c, x = a) :
    colVar c = 0 ∧
      standardScalerFitTransform sqrtQ cols
        = Except.error "ValueError: column with zero standard deviation" := by
  have hv := colVar_of_const c a ha
  refine ⟨hv, ?_⟩
  unfold standardScalerFitTransform
  rw [if_pos]
  exact List.any_eq_true.2 ⟨c, hc, by simp [hv]⟩

theorem standardScaler_const_column_fails_witness :
    colVar [(3 : ℚ), 3] = 0 ∧
      standardScalerFitTransform id [[(3 : ℚ), 3]]
        = Except.error "ValueError: column with zero standard deviation" :=
  standardScaler_const_column_fails id [[(3 : ℚ), 3]] [(3 : ℚ), 3] 3
    (by simp) (by intro x hx; rcases List.mem_cons.1 hx with rfl | hx2
                  · rfl
                  · simpa using hx2)

/-- C10: the scaling step (lines 33-36) transforms only the feature columns;
the `Class` column of the scaled table equals, position by position, the
`Class` column of the deduplicated input table. -/
theorem scaleStep_preserves_class (sqrtQ : ℚ → ℚ) (df out : DataFrame)
    (h : scaleStep sqrtQ df = Except.ok out) :
    (∀ i, out.cls.get? i = df.cls.get? i)
      ∧ standardScalerFitTransform sqrtQ df.features = Except.ok out.features := by
  unfold scaleStep at h
  cases hs : standardScalerFitTransform sqrtQ df.features with
  | error e =>
      rw [hs] at h
      exact Except.noConfusion h
  | ok scaled =>
      rw [hs] at h
      have hout : ({ features := scaled, cls := df.cls } : DataFrame) = out :=
        Except.ok.inj h
      subst hout
      exact ⟨fun _ => rfl, rfl⟩

theorem scaleStep_preserves_class_witness :
    (∀ i, (({ features := [[-2, 2]], cls := [5, 7] } : DataFrame)).cls.get? i
        = (({ features := [[0, 1]], cls := [5, 7] } : DataFrame)).cls.get? i)
      ∧ standardScalerFitTransform id
          (({ features := [[0, 1]], cls := [5, 7] } : DataFrame)).features
        = Except.ok
            (({ features := [[-2, 2]], cls := [5, 7] } : DataFrame)).features :=
  scaleStep_preserves_class id
    { features := [[0, 1]], cls := [5, 7] }
    { features := [[-2, 2]], cls := [5, 7] }
    (by
      have h1 : colMean [0, 1] = 1 / 2 := by norm_num [colMean]
      have h2 : colVar [0, 1] = 1 / 4 := by norm_num [colVar, colMean]
      simp [scaleStep, standardScalerFitTransform, h1, h2]
      norm_num)

/-- C3: the 80/20 split is a partition: train and test row counts add up to
the total row count, and no row index lands in both subsets. -/
theorem train_test_split_partition {α : Type} (X : List α) (perm : List ℕ)
    (nTest : ℕ) (hperm : perm.Perm (List.range X.length))
    (hn : nTest ≤ X.length) :
    (train_test_split X perm nTest).1.length
        + (train_test_split X perm nTest).2.length = X.length
      ∧ ∀ i ∈ perm.take nTest, i ∉ perm.drop nTest := by
  have hmem : ∀ i ∈ perm, i < X.length := fun i hi =>
    List.mem_range.1 (hperm.subset hi)
  have hlen : perm.length = X.length := by
    simpa [List.length_range] using hperm.length_eq
  have hnodup : perm.Nodup := hperm.nodup_iff.2 (List.nodup_range _)
  constructor
  · rw [train_test_split]
    rw [length_filterMap_get X _ (fun i hi => hmem i (List.mem_of_mem_drop hi)),
      length_filterMap_get X _ (fun i hi => hmem i (List.mem_of_mem_take hi))]
    rw [List.length_drop, List.length_take, hlen,
      min_eq_left hn, Nat.sub_add_cancel hn]
  · intro i hi hid
    exact List.disjoint_take_drop hnodup (le_refl nTest) hi hid

theorem train_test_split_partition_witness :
    (train_test_split [(10 : ℚ), 20, 30, 40, 50] [4, 2, 0, 3, 1] 1).1.length
        + (train_test_split [(10 : ℚ), 20, 30, 40, 50] [4, 2, 0, 3, 1] 1).2.length
        = ([(10 : ℚ), 20, 30, 40, 50] : List ℚ).length
      ∧ ∀ i ∈ ([4, 2, 0, 3, 1] : List ℕ).take 1,
          i ∉ ([4, 2, 0, 3, 1] : List ℕ).drop 1 :=
  train_test_split_partition [(10 : ℚ), 20, 30, 40, 50] [4, 2, 0, 3, 1] 1
    (by decide) (by decide)

/-- C4 (counterexample): on ten feature columns the script's feature
selection does not return the available feature names; `SelectKBest(k=40)`
fails with a `ValueError` because only ten columns exist. -/
theorem featureSelection_ten_features_errors :
    featureSelection scoreZero feats10 []
      = Except.error "ValueError: k exceeds number of available features" := by
  rfl

/-- C4 (amended): when fewer than 40 feature columns are available, the
feature-selection stage raises `ValueError` (the top-60 importance slice
clamps, but `SelectKBest(k=40)` does not); it never returns the clamped
feature-name list. -/
theorem featureSelection_few_features_errors (scoreF : List ℚ → List ℕ → ℚ)
    (feats : List (String × ℚ × List ℚ)) (y : List ℕ)
    (h : feats.length < 40) :
    featureSelection scoreF feats y
      = Except.error "ValueError: k exceeds number of available features" := by
  unfold featureSelection selectKBest
  rw [if_pos]
  · rfl
  · rw [List.length_map, List.length_take, List.length_insertionSort]
    exact lt_of_le_of_lt (min_le_right _ _) h

theorem featureSelection_few_features_errors_witness :
    featureSelection scoreZero (feats10.take 3) []
      = Except.error "ValueError: k exceeds number of available features" :=
  featureSelection_few_features_errors scoreZero (feats10.take 3) []
    (by decide)

/-- C6: the Loader's deduplication leaves no two equal rows (`Nodup`), keeps
a subsequence of the original rows ordered by first occurrence, changes no
membership, and is idempotent. -/
theorem dropDuplicates_spec {α : Type} [DecidableEq α] (l : List α) :
    (dropDuplicates l).Nodup
      ∧ (∀ x, x ∈ dropDuplicates l ↔ x ∈ l)
      ∧ (dropDuplicates l).Sublist l
      ∧ (dropDuplicates l).Pairwise (fun a b => l.indexOf a < l.indexOf b)
      ∧ dropDuplicates (dropDuplicates l) = dropDuplicates l :=
  ⟨dropDuplicates_nodup l, fun x => mem_dropDuplicates l x,
    dropDuplicates_sublist l, dropDuplicates_pairwise_indexOf l,
    dropDuplicates_idem l⟩

theorem pyMaxBy_spec {β : Type} (key : β → ℚ) :
    ∀ (xs : List β) (x : β),
      (∀ q ∈ xs, key q ≤ key (pyMaxBy key x xs))
        ∧ key x ≤ key (pyMaxBy key x xs)
        ∧ (pyMaxBy key x xs = x
            ∨ ∃ i, ∃ hi : i < xs.length,
                xs.get ⟨i, hi⟩ = pyMaxBy key x xs
                  ∧ key x < key (pyMaxBy key x xs)
                  ∧ ∀ j, ∀ hj : j < i,
                      key (xs.get ⟨j, Nat.lt_trans hj hi⟩)
                        < key (pyMaxBy key x xs)) := by
  intro xs
  induction xs with
  | nil =>
      intro x
      refine ⟨by simp, le_refl _, Or.inl rfl⟩
  | cons a t ih =>
      intro x
      have hstep : pyMaxBy key x (a :: t)
          = pyMaxBy key (if key x < key a then a else x) t := rfl
      by_cases h : key x < key a
      · rw [hstep, if_pos h]
        obtain ⟨H1, H2, H3⟩ := ih a
        refine ⟨?_, le_of_lt (lt_of_lt_of_le h H2), Or.inr ?_⟩
        · intro q hq
          rcases List.mem_cons.1 hq with rfl | hq2
          · exact H2
          · exact H1 q hq2
        · rcases H3 with heq | ⟨i, hi, hget, hlt, hprev⟩
          · refine ⟨0, Nat.succ_pos _, ?_, ?_, ?_⟩
            · exact heq.symm
            · rw [heq]
              exact h
            · intro j hj
              exact absurd hj (Nat.not_lt_zero j)
          · refine ⟨i + 1, Nat.succ_lt_succ hi, ?_, lt_trans h hlt, ?_⟩
            · show t.get ⟨i, hi⟩ = pyMaxBy key a t
              exact hget
            · intro j hj
              cases j with
              | zero => exact hlt
              | succ j2 =>
                  show key (t.get ⟨j2, _⟩) < key (pyMaxBy key a t)
                  exact hprev j2 (Nat.lt_of_succ_lt_succ hj)
      · rw [hstep, if_neg h]
        obtain ⟨H1, H2, H3⟩ := ih x
        have hax : key a ≤ key x := le_of_not_lt h
        refine ⟨?_, H2, ?_⟩
        · intro q hq
          rcases List.mem_cons.1 hq with rfl | hq2
          · exact le_trans hax H2
          · exact H1 q hq2
        · rcases H3 with heq | ⟨i, hi, hget, hlt, hprev⟩
          · exact Or.inl heq
          · refine Or.inr ⟨i + 1, Nat.succ_lt_succ hi, ?_, hlt, ?_⟩
            · show t.get ⟨i, hi⟩ = pyMaxBy key x t
              exact hget
            · intro j hj
              cases j with
              | zero => exact lt_of_le_of_lt hax hlt
              | succ j2 =>
                  show key (t.get ⟨j2, _⟩) < key (pyMaxBy key x t)
                  exact hprev j2 (Nat.lt_of_succ_lt_succ hj)

/-- C1: the model reported as best (line 188) sits at some index of the
metrics record, its accuracy is greater than or equal to every model's
accuracy in the record, and every model at an earlier index has strictly
smaller accuracy — so on ties the earliest model in insertion order wins. -/
theorem best_model_highest_accuracy (metrics : List (String × FullMetrics))
    (b : String) (h : best_model metrics = some b) :
    ∃ i, ∃ hi : i < metrics.length,
      (metrics.get ⟨i, hi⟩).1 = b
        ∧ (∀ q ∈ metrics, q.2.accuracy ≤ (metrics.get ⟨i, hi⟩).2.accuracy)
        ∧ ∀ j, ∀ hj : j < i,
            (metrics.get ⟨j, Nat.lt_trans hj hi⟩).2.accuracy
              < (metrics.get ⟨i, hi⟩).2.accuracy := by
  cases metrics with
  | nil => exact absurd h (by simp [best_model])
  | cons x xs =>
      have hb : (pyMaxBy (fun p => p.2.accuracy) x xs).1 = b := by
        simpa [best_model] using h
      obtain ⟨H1, H2, H3⟩ := pyMaxBy_spec (fun p => p.2.accuracy) xs x
      rcases H3 with heq | ⟨i, hi, hget, hlt, hprev⟩
      · refine ⟨0, Nat.succ_pos _, ?_, ?_, ?_⟩
        · show x.1 = b
          rw [← heq]
          exact hb
        · intro q hq
          show q.2.accuracy ≤ x.2.accuracy
          rcases List.mem_cons.1 hq with rfl | hq2
          · exact le_refl _
          · rw [← heq]
            exact H1 q hq2
        · intro j hj
          exact absurd hj (Nat.not_lt_zero j)
      · refine ⟨i + 1, Nat.succ_lt_succ hi, ?_, ?_, ?_⟩
        · show (xs.get ⟨i, hi⟩).1 = b
          rw [hget]
          exact hb
        · intro q hq
          show q.2.accuracy ≤ (xs.get ⟨i, hi⟩).2.accuracy
          rw [hget]
          rcases List.mem_cons.1 hq with rfl | hq2
          · exact le_of_lt hlt
          · exact H1 q hq2
        · intro j hj
          cases j with
          | zero =>
              show x.2.accuracy < (xs.get ⟨i, hi⟩).2.accuracy
              rw [hget]
              exact hlt
          | succ j2 =>
              show (xs.get ⟨j2, _⟩).2.accuracy < (xs.get ⟨i, hi⟩).2.accuracy
              rw [hget]
              exact hprev j2 (Nat.lt_of_succ_lt_succ hj)

theorem best_model_highest_accuracy_witness :
    ∃ i, ∃ hi : i <
        ([("A", mkFM 1), ("B", mkFM 2), ("C", mkFM 2)]
          : List (String × FullMetrics)).length,
      (([("A", mkFM 1), ("B", mkFM 2), ("C", mkFM 2)]
          : List (String × FullMetrics)).get ⟨i, hi⟩).1 = "B"
        ∧ (∀ q ∈ ([("A", mkFM 1), ("B", mkFM 2), ("C", mkFM 2)]
              : List (String × FullMetrics)),
            q.2.accuracy
              ≤ (([("A", mkFM 1), ("B", mkFM 2), ("C", mkFM 2)]
                  : List (String × FullMetrics)).get ⟨i, hi⟩).2.accuracy)
        ∧ ∀ j, ∀ hj : j < i,
            (([("A", mkFM 1), ("B", mkFM 2), ("C", mkFM 2)]
                : List (String × FullMetrics)).get
                  ⟨j, Nat.lt_trans hj hi⟩).2.accuracy
              < (([("A", mkFM 1), ("B", mkFM 2), ("C", mkFM 2)]
                  : List (String × FullMetrics)).get ⟨i, hi⟩).2.accuracy :=
  best_model_highest_accuracy [("A", mkFM 1), ("B", mkFM 2), ("C", mkFM 2)]
    "B" (by norm_num [best_model, pyMaxBy, mkFM])

/-- C9: the simplified second `evaluate_model` (lines 196-212) agrees with
the full first one (lines 104-154) on their common outputs: per model name,
it returns exactly the full evaluator's `average_metrics` bundle of
accuracy, weighted precision, weighted recall and weighted F1. -/
theorem evaluate_model_simple_agrees
    (rc : List ℕ → List ℚ → List ℚ × List ℚ)
    (models : List (String × Classifier)) (Xtr Xte : List (List ℚ))
    (ytr yte : List ℕ) :
    evaluate_model_simple models Xtr Xte ytr yte
      = (evaluate_model rc models Xtr Xte ytr yte).map
          (fun p => (p.1,
            ({ accuracy := p.2.average_metrics.accuracy
               precision := p.2.average_metrics.precision
               recallW := p.2.average_metrics.recallW
               f1_score := p.2.average_metrics.f1_score } : SimpleMetrics))) := by
  simp only [evaluate_model, evaluate_model_simple, evalOne, List.map_map]
  rfl

theorem label_binarize_length (yte : List ℕ) :
    (label_binarize yte).length
      = if (uniqueSorted yte).length = 2 then 1
        else (uniqueSorted yte).length := by
  unfold label_binarize
  by_cases h2 : (uniqueSorted yte).length = 2 <;> simp [h2]

theorem label_binarize_length_pos (yte : List ℕ) (h : yte ≠ []) :
    0 < (label_binarize yte).length := by
  rw [label_binarize_length]
  by_cases h2 : (uniqueSorted yte).length = 2
  · rw [if_pos h2]
    exact Nat.one_pos
  · rw [if_neg h2]
    obtain ⟨a, ha⟩ := List.exists_mem_of_ne_nil yte h
    exact List.length_pos.2
      (List.ne_nil_of_mem ((mem_uniqueSorted yte a).2 ha))

/-- C5 (amended): for a non-empty test set, the evaluator's ROC-curve list
is non-empty exactly when the model exposes `predict_proba`; when present it
holds one curve per column of the binarized test labels — that is, one per
distinct test class, except that a two-class test set is binarized to a
single column and so yields exactly one curve. -/
theorem evalOne_roc_curves_spec (rc : List ℕ → List ℚ → List ℚ × List ℚ)
    (cl : Classifier) (Xtr : List (List ℚ)) (ytr : List ℕ)
    (Xte : List (List ℚ)) (yte : List ℕ) (hne : yte ≠ []) :
    ((evalOne rc cl Xtr ytr Xte yte).roc_curves.length
        = if cl.hasProba then (label_binarize yte).length else 0)
      ∧ ((evalOne rc cl Xtr ytr Xte yte).roc_curves ≠ [] ↔ cl.hasProba = true)
      ∧ (label_binarize yte).length
          = if (uniqueSorted yte).length = 2 then 1
            else (uniqueSorted yte).length := by
  have hpos := label_binarize_length_pos yte hne
  refine ⟨?_, ?_, label_binarize_length yte⟩
  · by_cases hp : cl.hasProba <;>
      simp [evalOne, hp]
  · by_cases hp : cl.hasProba
    · refine ⟨fun _ => hp, fun _ hnil => ?_⟩
      have hlen2 : (evalOne rc cl Xtr ytr Xte yte).roc_curves.length
          = (label_binarize yte).length := by
        simp [evalOne, hp]
      rw [hnil] at hlen2
      simp at hlen2
      omega
    · have hnil : (evalOne rc cl Xtr ytr Xte yte).roc_curves = [] := by
        simp [evalOne, hp]
      rw [hnil]
      simp [hp]

theorem evalOne_roc_curves_spec_witness :
    ((evalOne rocConst clfProba [] [] [] [0, 1, 2]).roc_curves.length
        = if clfProba.hasProba then (label_binarize [0, 1, 2]).length else 0)
      ∧ ((evalOne rocConst clfProba [] [] [] [0, 1, 2]).roc_curves ≠ []
          ↔ clfProba.hasProba = true)
      ∧ (label_binarize [0, 1, 2]).length
          = if (uniqueSorted [0, 1, 2]).length = 2 then 1
            else (uniqueSorted [0, 1, 2]).length :=
  evalOne_roc_curves_spec rocConst clfProba [] [] [] [0, 1, 2] (by decide)

/-- C5 (counterexample): with two distinct classes in the test labels and a
probability-exposing model, the evaluator produces exactly one ROC curve —
not one per distinct class — because binary labels binarize to a single
column. -/
theorem evalOne_binary_single_roc_curve :
    (evalOne rocConst clfProba [] [] [] [0, 1, 0, 1]).roc_curves.length = 1
      ∧ (uniqueSorted [0, 1, 0, 1]).length = 2 := by
  constructor
  · decide
  · decide

theorem zip_filter_fst_length (c : ℕ) :
    ∀ (yt yp : List ℕ), yt.length = yp.length →
      ((yt.zip yp).filter (fun p => decide (p.1 = c))).length = support yt c := by
  intro yt
  induction yt with
  | nil =>
      intro yp _
      simp [support]
  | cons a t ih =>
      intro yp h
      cases yp with
      | nil => exact absurd h (by simp)
      | cons b s =>
          have h2 : t.length = s.length := by simpa using h
          by_cases hac : a = c <;>
            simp [List.zip_cons_cons, List.filter_cons, hac, support,
              ih s h2, Nat.add_comm]

theorem filter_snd_length (L : List (ℕ × ℕ)) (c2 : ℕ) :
    (L.filter (fun p => decide (p.2 = c2))).length
      = ((L.map Prod.snd).filter (fun x => decide (x = c2))).length := by
  induction L with
  | nil => rfl
  | cons p t ih =>
      by_cases h : p.2 = c2 <;> simp [List.filter_cons, h, ih]

theorem cmEntry_filter_filter (yt yp : List ℕ) (c c2 : ℕ) :
    cmEntry yt yp c c2
      = (((yt.zip yp).filter (fun p => decide (p.1 = c))).filter
          (fun p => decide (p.2 = c2))).length := by
  rw [cmEntry, List.filter_filter]
  congr 1
  apply List.filter_congr
  intro a _
  exact Bool.and_comm _ _

theorem sum_map_add_nat {γ : Type} (l : List γ) (f g : γ → ℕ) :
    (l.map (fun c => f c + g c)).sum = (l.map f).sum + (l.map g).sum := by
  induction l with
  | nil => rfl
  | cons a t ih =>
      simp only [List.map_cons, List.sum_cons, ih]
      omega

theorem sum_indicator_one (x : ℕ) :
    ∀ (cs : List ℕ), cs.Nodup → x ∈ cs →
      (cs.map (fun c => if x = c then (1 : ℕ) else 0)).sum = 1 := by
  intro cs
  induction cs with
  | nil =>
      intro _ hx
      simp at hx
  | cons a t ih =>
      intro hnd hx
      rcases List.nodup_cons.1 hnd with ⟨ha, hnd2⟩
      rcases List.mem_cons.1 hx with rfl | hx2
      · simp only [List.map_cons, List.sum_cons, if_pos rfl]
        have hzero : (t.map (fun c => if x = c then (1 : ℕ) else 0)).sum = 0 := by
          apply List.sum_eq_zero
          intro y hy
          rcases List.mem_map.1 hy with ⟨c, hc, rfl⟩
          rw [if_neg]
          rintro rfl
          exact ha hc
        rw [hzero]
        simp
      · have hax : x ≠ a := fun hxa => ha (hxa ▸ hx2)
        simp only [List.map_cons, List.sum_cons, if_neg hax]
        rw [ih hnd2 hx2, Nat.zero_add]

theorem sum_filter_count (cs : List ℕ) (hnd : cs.Nodup) :
    ∀ (M : List ℕ), (∀ x ∈ M, x ∈ cs) →
      (cs.map (fun c => (M.filter (fun x => decide (x = c))).length)).sum
        = M.length := by
  intro M
  induction M with
  | nil =>
      intro _
      simp
  | cons x t ih =>
      intro h
      have hx : x ∈ cs := h x (List.mem_cons_self _ _)
      have ht : ∀ y ∈ t, y ∈ cs := fun y hy => h y (List.mem_cons_of_mem _ hy)
      have hstep : ∀ c : ℕ,
          ((x :: t).filter (fun z => decide (z = c))).length
            = (t.filter (fun z => decide (z = c))).length
              + (if x = c then 1 else 0) := by
        intro c
        by_cases hc : x = c <;> simp [List.filter_cons, hc, Nat.add_comm]
      calc (cs.map (fun c => (((x :: t).filter (fun z => decide (z = c))).length))).sum
          = (cs.map (fun c => (t.filter (fun z => decide (z = c))).length
              + (if x = c then 1 else 0))).sum := by
            simp only [hstep]
        _ = (cs.map (fun c => (t.filter (fun z => decide (z = c))).length)).sum
              + (cs.map (fun c => if x = c then (1 : ℕ) else 0)).sum :=
            sum_map_add_nat cs _ _
        _ = t.length + 1 := by
            rw [ih ht, sum_indicator_one x cs hnd hx]
        _ = (x :: t).length := by
            simp [Nat.add_comm]

/-- The sum of entries of row `i` of the confusion matrix equals the number
of test samples whose true label is the class of row `i`. -/
theorem confusion_matrix_row_sum (yt yp : List ℕ)
    (hlen : yt.length = yp.length) (i : ℕ) (c : ℕ) (row : List ℕ)
    (hc : (classesList yt yp).get? i = some c)
    (hrow : (confusion_matrix yt yp).get? i = some row) :
    row.sum = support yt c := by
  have hrow2 : row = (classesList yt yp).map (fun c2 => cmEntry yt yp c c2) := by
    rw [confusion_matrix, List.get?_eq_getElem?, List.getElem?_map] at hrow
    rw [List.get?_eq_getElem?] at hc
    rw [hc] at hrow
    exact (Option.some.inj hrow).symm
  have hcm : ∀ c2, cmEntry yt yp c c2
      = ((((yt.zip yp).filter (fun p => decide (p.1 = c))).map
          Prod.snd).filter (fun x => decide (x = c2))).length := by
    intro c2
    rw [cmEntry_filter_filter, filter_snd_length]
  have hMmem : ∀ x ∈ ((yt.zip yp).filter
      (fun p => decide (p.1 = c))).map Prod.snd, x ∈ classesList yt yp := by
    intro x hx
    rcases List.mem_map.1 hx with ⟨p, hp, rfl⟩
    have hp2 : p ∈ yt.zip yp := List.mem_of_mem_filter hp
    have hsnd : p.2 ∈ yp := by
      obtain ⟨p1, p2⟩ := p
      exact (List.of_mem_zip hp2).2
    exact (mem_uniqueSorted _ _).2 (List.mem_append.2 (Or.inr hsnd))
  calc row.sum
      = ((classesList yt yp).map (fun c2 =>
          ((((yt.zip yp).filter (fun p => decide (p.1 = c))).map
            Prod.snd).filter (fun x => decide (x = c2))).length)).sum := by
        rw [hrow2]
        simp only [hcm]
    _ = (((yt.zip yp).filter (fun p => decide (p.1 = c))).map Prod.snd).length :=
        sum_filter_count _ (uniqueSorted_nodup _) _ hMmem
    _ = ((yt.zip yp).filter (fun p => decide (p.1 = c))).length :=
        List.length_map _ _
    _ = support yt c := zip_filter_fst_length c yt yp hlen

theorem precClass_bounds (yt yp : List ℕ) (c : ℕ) :
    0 ≤ precClass yt yp c ∧ precClass yt yp c ≤ 1 := by
  unfold precClass
  by_cases h : ((yt.zip yp).filter (fun p => decide (p.2 = c))).length = 0
  · rw [if_pos h]
    exact ⟨le_refl 0, zero_le_one⟩
  · rw [if_neg h]
    have hle : cmEntry yt yp c c
        ≤ ((yt.zip yp).filter (fun p => decide (p.2 = c))).length := by
      rw [cmEntry]
      exact (List.monotone_filter_right _
        (fun a ha => by
          simp only [Bool.and_eq_true, decide_eq_true_eq] at ha ⊢
          exact ha.2)).length_le
    constructor
    · exact div_nonneg (Nat.cast_nonneg _) (Nat.cast_nonneg _)
    · exact div_le_one_of_le₀ (Nat.cast_le.2 hle) (Nat.cast_nonneg _)

theorem recClass_bounds (yt yp : List ℕ) (c : ℕ)
    (hlen : yt.length = yp.length) :
    0 ≤ recClass yt yp c ∧ recClass yt yp c ≤ 1 := by
  unfold recClass
  by_cases h : support yt c = 0
  · rw [if_pos h]
    exact ⟨le_refl 0, zero_le_one⟩
  · rw [if_neg h]
    have hle : cmEntry yt yp c c ≤ support yt c := by
      rw [cmEntry, ← zip_filter_fst_length c yt yp hlen]
      exact (List.monotone_filter_right _
        (fun a ha => by
          simp only [Bool.and_eq_true, decide_eq_true_eq] at ha ⊢
          exact ha.1)).length_le
    constructor
    · exact div_nonneg (Nat.cast_nonneg _) (Nat.cast_nonneg _)
    · exact div_le_one_of_le₀ (Nat.cast_le.2 hle) (Nat.cast_nonneg _)

theorem f1Class_bounds (yt yp : List ℕ) (c : ℕ)
    (hlen : yt.length = yp.length) :
    0 ≤ f1Class yt yp c ∧ f1Class yt yp c ≤ 1 := by
  obtain ⟨hp0, hp1⟩ := precClass_bounds yt yp c
  obtain ⟨hr0, hr1⟩ := recClass_bounds yt yp c hlen
  unfold f1Class
  by_cases h : precClass yt yp c + recClass yt yp c = 0
  · rw [if_pos h]
    exact ⟨le_refl 0, zero_le_one⟩
  · rw [if_neg h]
    have hpos : 0 < precClass yt yp c + recClass yt yp c :=
      lt_of_le_of_ne (add_nonneg hp0 hr0) (Ne.symm h)
    constructor
    · apply div_nonneg _ (le_of_lt hpos)
      have := mul_nonneg hp0 hr0
      linarith
    · rw [div_le_one hpos]
      have h1 : precClass yt yp c * recClass yt yp c ≤ precClass yt yp c :=
        mul_le_of_le_one_right hp0 hr1
      have h2 : precClass yt yp c * recClass yt yp c ≤ recClass yt yp c :=
        mul_le_of_le_one_left hr0 hp1
      linarith

theorem weightedAvg_bounds (yt yp : List ℕ) (metric : ℕ → ℚ)
    (h0 : ∀ c ∈ classesList yt yp, 0 ≤ metric c)
    (h1 : ∀ c ∈ classesList yt yp, metric c ≤ 1) :
    0 ≤ weightedAvg yt yp metric ∧ weightedAvg yt yp metric ≤ 1 := by
  unfold weightedAvg
  by_cases h : ((classesList yt yp).map (fun c => (support yt c : ℚ))).sum = 0
  · rw [if_pos h]
    exact ⟨le_refl 0, zero_le_one⟩
  · rw [if_neg h]
    have htot0 : 0 ≤ ((classesList yt yp).map
        (fun c => (support yt c : ℚ))).sum := by
      apply List.sum_nonneg
      intro x hx
      rcases List.mem_map.1 hx with ⟨c, _, rfl⟩
      exact Nat.cast_nonneg _
    have htot : 0 < ((classesList yt yp).map
        (fun c => (support yt c : ℚ))).sum :=
      lt_of_le_of_ne htot0 (Ne.symm h)
    have hnum0 : 0 ≤ ((classesList yt yp).map
        (fun c => (support yt c : ℚ) * metric c)).sum := by
      apply List.sum_nonneg
      intro x hx
      rcases List.mem_map.1 hx with ⟨c, hc, rfl⟩
      exact mul_nonneg (Nat.cast_nonneg _) (h0 c hc)
    have hnumle : ((classesList yt yp).map
        (fun c => (support yt c : ℚ) * metric c)).sum
        ≤ ((classesList yt yp).map (fun c => (support yt c : ℚ))).sum := by
      apply List.sum_le_sum
      intro c hc
      exact mul_le_of_le_one_right (Nat.cast_nonneg _) (h1 c hc)
    exact ⟨div_nonneg hnum0 (le_of_lt htot),
      (div_le_one htot).2 hnumle⟩

theorem accuracy_score_bounds (yt yp : List ℕ) :
    0 ≤ accuracy_score yt yp ∧ accuracy_score yt yp ≤ 1 := by
  unfold accuracy_score
  constructor
  · exact div_nonneg (Nat.cast_nonneg _) (Nat.cast_nonneg _)
  · apply div_le_one_of_le₀ _ (Nat.cast_nonneg _)
    apply Nat.cast_le.2
    calc ((yt.zip yp).filter (fun p => decide (p.1 = p.2))).length
        ≤ (yt.zip yp).length := List.length_filter_le _ _
      _ ≤ yt.length := by
          rw [List.length_zip]
          exact min_le_left _ _

/-- C2: for any test labels and predictions of equal length, the accuracy,
weighted precision, weighted recall and weighted F1 computed by the
evaluator each lie in `[0, 1]`, and every row sum of the confusion matrix
equals the number of test samples whose true label is that row's class. -/
theorem evaluator_metric_bounds (yt yp : List ℕ)
    (hlen : yt.length = yp.length) :
    (0 ≤ accuracy_score yt yp ∧ accuracy_score yt yp ≤ 1)
      ∧ (0 ≤ precision_score yt yp ∧ precision_score yt yp ≤ 1)
      ∧ (0 ≤ recall_score yt yp ∧ recall_score yt yp ≤ 1)
      ∧ (0 ≤ f1_score yt yp ∧ f1_score yt yp ≤ 1)
      ∧ ∀ i c row, (classesList yt yp).get? i = some c →
          (confusion_matrix yt yp).get? i = some row →
          row.sum = support yt c := by
  refine ⟨accuracy_score_bounds yt yp, ?_, ?_, ?_, ?_⟩
  · exact weightedAvg_bounds yt yp _
      (fun c _ => (precClass_bounds yt yp c).1)
      (fun c _ => (precClass_bounds yt yp c).2)
  · exact weightedAvg_bounds yt yp _
      (fun c _ => (recClass_bounds yt yp c hlen).1)
      (fun c _ => (recClass_bounds yt yp c hlen).2)
  · exact weightedAvg_bounds yt yp _
      (fun c _ => (f1Class_bounds yt yp c hlen).1)
      (fun c _ => (f1Class_bounds yt yp c hlen).2)
  · exact fun i c row hc hrow =>
      confusion_matrix_row_sum yt yp hlen i c row hc hrow

theorem evaluator_metric_bounds_witness :
    (0 ≤ accuracy_score [0, 1, 0] [0, 1, 1]
        ∧ accuracy_score [0, 1, 0] [0, 1, 1] ≤ 1)
      ∧ (0 ≤ precision_score [0, 1, 0] [0, 1, 1]
          ∧ precision_score [0, 1, 0] [0, 1, 1] ≤ 1)
      ∧ (0 ≤ recall_score [0, 1, 0] [0, 1, 1]
          ∧ recall_score [0, 1, 0] [0, 1, 1] ≤ 1)
      ∧ (0 ≤ f1_score [0, 1, 0] [0, 1, 1]
          ∧ f1_score [0, 1, 0] [0, 1, 1] ≤ 1)
      ∧ ∀ i c row, (classesList [0, 1, 0] [0, 1, 1]).get? i = some c →
          (confusion_matrix [0, 1, 0] [0, 1, 1]).get? i = some row →
          row.sum = support [0, 1, 0] c :=
  evaluator_metric_bounds [0, 1, 0] [0, 1, 1] (by decide)

end StrokePred
